import Mathlib

/-!
Verification of the timed multi-segment media assembly pipeline of the
RedditVideoMakerBot repository, as a shallow embedding in Lean 4.

The embedded code comes from:
* `utils/word_timing.py`  — word-timing estimation, JSON save/load;
* `TTS/engine_wrapper.py` — the TTS engine wrapper (`run`, `call_tts`,
  `split_post`, `_merge_timing_files`);
* `video_creation/final_video.py` — `apply_word_by_word_text`.

Python floats are modelled as rationals (`ℚ`), Python strings as `List Char`,
Python exceptions as `Except`/`Option`.  Durations obtained by probing audio
files on disk are passed to the models as explicit inputs (`Option ℚ`:
`none` models a probe that raised).
-/

/-- The six ASCII whitespace characters recognised by Python's `str.split`,
`str.strip` and `str.isspace` (the models restrict attention to ASCII text). -/
def pyWsB (c : Char) : Bool :=
  c = ' ' || c = '\t' || c = '\n' || c = '\r' || c = '\x0b' || c = '\x0c'

/-- Python `str.strip()`: drop whitespace from both ends. -/
def pyStrip (l : List Char) : List Char :=
  ((l.dropWhile pyWsB).reverse.dropWhile pyWsB).reverse

/-- Worker for `pySplit`: accumulates the current word (reversed). -/
def pySplitGo : List Char → List Char → List (List Char)
  | [], acc => if acc.isEmpty then [] else [acc.reverse]
  | c :: rest, acc =>
    if pyWsB c then
      if acc.isEmpty then pySplitGo rest [] else acc.reverse :: pySplitGo rest []
    else pySplitGo rest (c :: acc)

/-- Python `str.split()` with no argument: split on runs of whitespace,
discarding empty pieces. -/
def pySplit (s : List Char) : List (List Char) := pySplitGo s []

/-- One word-timing record, as produced by `estimate_word_timings`
(`{"word": ..., "start": ..., "end": ...}` in the Python source; `end` is a
Lean keyword, so the field is named `stop`). -/
structure WordTiming where
  word : List Char
  start : ℚ
  stop : ℚ
deriving DecidableEq, Repr, Inhabited

/-- The error raised by `estimate_word_timings`
(`ValueError(f"audio_duration must be positive, got {audio_duration}")`). -/
inductive TimingError where
  | invalidDuration (d : ℚ)
deriving DecidableEq, Repr

/-- `words = [word.strip() for word in text.split() if word.strip()]`
from `estimate_word_timings` (utils/word_timing.py). -/
def splitWords (text : List Char) : List (List Char) :=
  ((pySplit text).map pyStrip).filter (fun w => !w.isEmpty)

/-- The accumulation loop of `estimate_word_timings`: walks the words,
carrying `current_time`, and emits one record per word. -/
def estimateGo (tpw : ℚ) : List (List Char) → ℚ → List WordTiming
  | [], _ => []
  | w :: rest, cur => ⟨w, cur, cur + tpw⟩ :: estimateGo tpw rest (cur + tpw)

/-- `estimate_word_timings(text, audio_duration)` from utils/word_timing.py:
empty word list returns `[]`; then `audio_duration <= 0` raises; otherwise
each word gets a uniform `time_per_word` window. -/
def estimate_word_timings (text : List Char) (audioDuration : ℚ) :
    Except TimingError (List WordTiming) :=
  let words := splitWords text
  if words.isEmpty then .ok []
  else if audioDuration ≤ 0 then .error (.invalidDuration audioDuration)
  else .ok (estimateGo (audioDuration / words.length) words 0)

/-- JSON values, the object graph handled by Python's `json.dump`/`json.load`
in utils/word_timing.py (the textual layer of JSON is abstracted; numbers are
rationals, matching the finite floats the estimator produces). -/
inductive JsonVal where
  | num (q : ℚ)
  | str (s : List Char)
  | arr (elems : List JsonVal)
  | obj (fields : List (List Char × JsonVal))

/-- The JSON object `{"word": ..., "start": ..., "end": ...}` that
`save_word_timings` writes for one timing record. -/
def encodeTiming (t : WordTiming) : JsonVal :=
  .obj [("word".toList, .str t.word),
        ("start".toList, .num t.start),
        ("end".toList, .num t.stop)]

/-- `save_word_timings(timings, filepath)` (utils/word_timing.py): the JSON
document written to disk — an array of one object per record, in order. -/
def save_word_timings (timings : List WordTiming) : JsonVal :=
  .arr (timings.map encodeTiming)

/-- Reading one `{"word","start","end"}` object back as a timing record;
any other shape is not a timing record. -/
def decodeTiming : JsonVal → Option WordTiming
  | .obj [(k1, .str w), (k2, .num s), (k3, .num e)] =>
    if k1 = "word".toList ∧ k2 = "start".toList ∧ k3 = "end".toList then
      some ⟨w, s, e⟩
    else none
  | _ => none

/-- Reading a list of timing objects back, in order; fails if any element is
not a timing record. -/
def decodeTimings : List JsonVal → Option (List WordTiming)
  | [] => some []
  | v :: rest =>
    match decodeTiming v, decodeTimings rest with
    | some t, some ts => some (t :: ts)
    | _, _ => none

/-- `load_word_timings(filepath)` (utils/word_timing.py): parse the JSON
document back into the ordered list of timing records. -/
def load_word_timings (doc : JsonVal) : Option (List WordTiming) :=
  match doc with
  | .arr elems => decodeTimings elems
  | _ => none

/-- One step of the loop of `TTSEngine._merge_timing_files`
(TTS/engine_wrapper.py): `none` models a timing file whose read raised
(`FileNotFoundError`/`JSONDecodeError`, `continue`); otherwise every record is
shifted by the running offset and appended, and — when the part is
non-empty — the offset advances to the last merged record's `end` plus the
configured silence duration. -/
def mergeStep (silence : ℚ) (acc : List WordTiming × ℚ)
    (part : Option (List WordTiming)) : List WordTiming × ℚ :=
  match part with
  | none => acc
  | some timings =>
    let shifted := timings.map
      (fun t => ⟨t.word, t.start + acc.2, t.stop + acc.2⟩)
    let merged := acc.1 ++ shifted
    if timings.isEmpty then (merged, acc.2)
    else
      match merged.getLast? with
      | some lastT => (merged, lastT.stop + silence)
      | none => (merged, acc.2)

/-- `TTSEngine._merge_timing_files(timing_files, output_file)`
(TTS/engine_wrapper.py): fold the parts in order, starting from an empty
merged list and offset `0.0`; the merged list is what gets saved. -/
def merge_timing_files (parts : List (Option (List WordTiming)))
    (silence : ℚ) : List WordTiming :=
  (parts.foldl (mergeStep silence) ([], 0)).1

/-- The duration-accounting state of `TTSEngine` (TTS/engine_wrapper.py):
`self.length` and `self.last_clip_length`. -/
structure EngineState where
  length : ℚ
  lastClipLength : ℚ
deriving DecidableEq, Repr

/-- The state update of `TTSEngine.call_tts` (TTS/engine_wrapper.py):
`probe = some d` models `AudioFileClip` succeeding with duration `d`
(`self.last_clip_length = clip.duration; self.length += clip.duration`);
`probe = none` models the probe raising, caught by `except Exception:
self.length = 0` — which zeroes the accumulated length and leaves
`last_clip_length` unchanged. -/
def call_tts_update (st : EngineState) (probe : Option ℚ) : EngineState :=
  match probe with
  | some d => ⟨st.length + d, d⟩
  | none => ⟨0, st.lastClipLength⟩

/-- The comment-mode loop of `TTSEngine.run` (TTS/engine_wrapper.py):
`for idx, comment in enumerate(comments)` with the budget check
`if self.length > self.max_length and idx > 1` at the top of each iteration
(`self.length -= self.last_clip_length; idx -= 1; break`), then the unit is
synthesized and probed.  On natural exhaustion Python's `idx` retains the last
enumerate value, i.e. one less than the next index `i` (`ℕ` subtraction also
matches the empty-list case, where Python returns the pre-loop `idx = 0`). -/
def tts_run_loop (maxLength : ℚ) :
    List (Option ℚ) → EngineState → ℕ → ℚ × ℕ
  | [], st, i => (st.length, i - 1)
  | probe :: rest, st, i =>
    if st.length > maxLength ∧ i > 1 then
      (st.length - st.lastClipLength, i - 1)
    else tts_run_loop maxLength rest (call_tts_update st probe) (i + 1)

/-- `TTSEngine.run` in comment mode (TTS/engine_wrapper.py): the title is
synthesized and probed first (`self.call_tts("title", ...)`), then the
comment loop runs; returns `(self.length, idx)`.  Each unit is abstracted by
its probe outcome. -/
def tts_run (titleProbe : Option ℚ) (commentProbes : List (Option ℚ))
    (maxLength : ℚ) : ℚ × ℕ :=
  tts_run_loop maxLength commentProbes (call_tts_update ⟨0, 0⟩ titleProbe) 0

/-- One line of the ffmpeg concat list file `list.txt` written by
`TTSEngine.split_post` (TTS/engine_wrapper.py): either a part-audio file
(`file 'idx-idz.part.mp3'`, identified by its part index `idz`) or the
silence asset (`file 'silence.mp3'`). -/
inductive ConcatEntry where
  | part (i : ℕ)
  | silence
deriving DecidableEq, Repr

/-- The skip test of `TTSEngine.split_post`:
`if not newtext or newtext.isspace(): continue` — a processed chunk is blank
when it is empty or consists of whitespace only. -/
def isBlank (s : List Char) : Bool :=
  s.isEmpty || (!s.isEmpty && s.all pyWsB)

/-- The concat list file of `TTSEngine.split_post` (TTS/engine_wrapper.py),
as a function of the processed (sanitized) chunk texts.  Each retained
(non-blank) chunk's iteration rewrites `list.txt` from scratch with one
`file 'idx-idz.part.mp3'` line for EVERY `idz in range(0, len(split_text))`
— retained or not — followed by a single `file 'silence.mp3'` line; the fold
returns the file's final content, `none` if no iteration ever wrote it. -/
def split_post_list (parts : List (List Char)) : Option (List ConcatEntry) :=
  parts.foldl
    (fun acc s =>
      if isBlank s then acc
      else some ((List.range parts.length).map ConcatEntry.part ++
                 [ConcatEntry.silence]))
    none

/-- The concatenation list as the specification describes it (modelled from
the spec's words, for comparison with `split_post_list`): exactly the
retained chunks, by part index in ascending order, each followed by one
silence entry. -/
def spec_concat_list (parts : List (List Char)) : List ConcatEntry :=
  (parts.enum.filter (fun p => !isBlank p.2)).flatMap
    (fun p => [ConcatEntry.part p.1, ConcatEntry.silence])

/-- The single-quote character (used by the FFmpeg escaping rules). -/
def sqChar : Char := Char.ofNat 39

/-- The backslash character (used by the FFmpeg escaping rules). -/
def bslChar : Char := Char.ofNat 92

/-- Python `str.replace(old, new)` for a one-character pattern: a single
left-to-right pass over the original string, never rescanning replacements. -/
def replaceChar (c : Char) (rep : List Char) (l : List Char) : List Char :=
  l.foldr (fun x acc => (if x = c then rep else [x]) ++ acc) []

/-- The escaping applied by `apply_word_by_word_text`
(video_creation/final_video.py) before handing text to ffmpeg `drawtext`:
`'` ↦ `'\''`, then `:` ↦ `\:`, then `%` ↦ `\%`, in that order. -/
def ffmpegEscape (l : List Char) : List Char :=
  replaceChar '%' [bslChar, '%']
    (replaceChar ':' [bslChar, ':']
      (replaceChar sqChar [sqChar, bslChar, bslChar, sqChar, sqChar] l))

/-- Python `" ".join(words)`: the space-join used for the progressive
caption payloads. -/
def joinWords : List (List Char) → List Char
  | [] => []
  | [w] => w
  | w :: rest => w ++ ' ' :: joinWords rest

/-- One drawtext caption directive emitted by `apply_word_by_word_text`:
its (escaped) text payload and its `enable='between(t,winStart,winEnd)'`
visibility window. -/
structure Caption where
  text : List Char
  winStart : ℚ
  winEnd : ℚ
deriving DecidableEq, Repr, Inhabited

/-- `apply_word_by_word_text(background_clip, timings_file, start_time,
end_time, W, H)` (video_creation/final_video.py), abstracted to the list of
caption directives it adds: for each `i`, the payload is the escaped
space-join of words `0..i`, the window starts at
`start_time + timings[i]["start"]` and ends at
`start_time + timings[i+1]["start"]` — except for the last caption, whose
window ends at `end_time`.  (The input is the already-loaded timings list;
the missing-file / bad-JSON / missing-font guards of the source add no
captions at all.) -/
def apply_word_by_word_text (timings : List WordTiming)
    (startTime endTime : ℚ) : List Caption :=
  (List.range timings.length).map fun i =>
    { text := ffmpegEscape
        (joinWords ((timings.take (i + 1)).map WordTiming.word))
      winStart := startTime + (timings.getD i default).start
      winEnd :=
        if i < timings.length - 1 then
          startTime + (timings.getD (i + 1) default).start
        else endTime }

/-- The terminator alternation `(\.|.$)` of the `split_post` regex
`" *(((.|\n){0,max_chars})(\.|.$))"` (TTS/engine_wrapper.py), at position
`r` of the text: `\.` matches a literal period; `.$` matches any
non-newline character standing at the end of the string (Python `$` also
matches just before a single trailing newline).  Returns the end position of
the match (always `r + 1`). -/
def termEnd (t : List Char) (r : ℕ) : Option ℕ :=
  match t.get? r with
  | none => none
  | some ch =>
    if ch = '.' then some (r + 1)
    else if ch ≠ '\n' ∧
        (r + 1 = t.length ∨ (r + 2 = t.length ∧ t.get? (r + 1) = some '\n'))
      then some (r + 1)
    else none

/-- The greedy content group `(.|\n){0,c}` followed by the terminator, with
the content starting at `q`: the backtracking engine tries the longest
content first (`c` characters), then shorter.  `(.|\n)` matches every
character, so only the count matters; a count that overruns the text makes
the terminator fail (`termEnd` returns `none` past the end). -/
def tryContent (t : List Char) (q : ℕ) : ℕ → Option ℕ
  | 0 => termEnd t q
  | c + 1 =>
    match termEnd t (q + c + 1) with
    | some e => some e
    | none => tryContent t q c

/-- The greedy leading `" *"` of the regex: try consuming `s` spaces first
(content then starts at `p + s`), backtracking to fewer.  Only called with
`s` at most the actual space run at `p`. -/
def trySpaces (t : List Char) (M p : ℕ) : ℕ → Option ℕ
  | 0 => tryContent t p M
  | s + 1 =>
    match tryContent t (p + s + 1) M with
    | some e => some e
    | none => trySpaces t M p s

/-- Length of the maximal run of space characters starting at position `p`. -/
def spaceRun (t : List Char) (p : ℕ) : ℕ :=
  ((t.drop p).takeWhile (fun c => c = ' ')).length

/-- Whether the whole `split_post` regex matches at position `p`, and the end
position of the (leftmost-greedy) match if so. -/
def tryMatch (t : List Char) (M p : ℕ) : Option ℕ :=
  trySpaces t M p (spaceRun t p)

/-- `re.finditer` scanning: try the pattern at successive start positions,
resuming after the end of each (non-empty) match; returns the matched spans
`(start, end)`.  Fuel decreases by one per scan step; every match advances
the position by at least one, so `t.length + 1` fuel is exhaustive. -/
def finditerGo (t : List Char) (M : ℕ) : ℕ → ℕ → List (ℕ × ℕ)
  | 0, _ => []
  | fuel + 1, p =>
    if p ≤ t.length then
      match tryMatch t M p with
      | some e => (p, e) :: finditerGo t M fuel e
      | none => finditerGo t M fuel (p + 1)
    else []

/-- All spans of `re.finditer(r" *(((.|\n){0,M})(\.|.$))", text)`. -/
def finditer (t : List Char) (M : ℕ) : List (ℕ × ℕ) :=
  finditerGo t M (t.length + 1) 0

/-- `x.group()` for a span: the matched slice of the text. -/
def extractSpan (t : List Char) (sp : ℕ × ℕ) : List Char :=
  (t.drop sp.1).take (sp.2 - sp.1)

/-- The chunk list `split_text` computed by `TTSEngine.split_post`
(TTS/engine_wrapper.py): `[x.group().strip() for x in re.finditer(...)]`. -/
def split_post_chunks (text : List Char) (M : ℕ) : List (List Char) :=
  (finditer text M).map (fun sp => pyStrip (extractSpan text sp))

/-- A character the FFmpeg drawtext escaping leaves alone (not a single
quote, colon or percent sign). -/
def cleanChar (ch : Char) : Prop := ch ≠ sqChar ∧ ch ≠ ':' ∧ ch ≠ '%'

instance (ch : Char) : Decidable (cleanChar ch) :=
  inferInstanceAs (Decidable (_ ∧ _))

/-- The postcondition claimed for `estimate_word_timings` on a text with at
least one word and a positive duration: exactly one record per word, record
`i` spanning `[i*(d/n), (i+1)*(d/n)]`, first start `0`, last end `d`,
non-decreasing starts and ends, and contiguous windows. -/
def estimateSpec (text : List Char) (d : ℚ) : Prop :=
  let n : ℚ := (splitWords text).length
  ∃ l, estimate_word_timings text d = Except.ok l ∧
    l.length = (splitWords text).length ∧
    (∀ i : ℕ, l[i]? = (splitWords text)[i]?.map
      (fun w => ⟨w, (i : ℚ) * (d / n), ((i : ℚ) + 1) * (d / n)⟩)) ∧
    l.head?.map WordTiming.start = some 0 ∧
    l.getLast?.map WordTiming.stop = some d ∧
    List.Chain' (fun a b => a.start ≤ b.start ∧ a.stop ≤ b.stop) l ∧
    (∀ i : ℕ, i + 1 < l.length →
      l[i]?.map WordTiming.stop = l[i + 1]?.map WordTiming.start)

/-- The caption-scheduling postcondition claimed for
`apply_word_by_word_text` with cursor `c` and unit duration `d` (so
`end_time = c + d`): one caption per word; caption `i` starts at
`c + timings[i].start`; it ends at `c + timings[i+1].start` when a next word
exists, and at `c + d` for the last word; its payload is the FFmpeg-escaped
progressive space-join of words `0..i`. -/
def overlayCaptionsOk (timings : List WordTiming) (c d : ℚ) : Prop :=
  let caps := apply_word_by_word_text timings c (c + d)
  caps.length = timings.length ∧
  ∀ i : ℕ, ∀ t : WordTiming, timings[i]? = some t →
    ∃ cap : Caption, caps[i]? = some cap ∧
      cap.text = ffmpegEscape
        (joinWords ((timings.take (i + 1)).map WordTiming.word)) ∧
      cap.winStart = c + t.start ∧
      (∀ t2 : WordTiming, timings[i + 1]? = some t2 →
        cap.winEnd = c + t2.start) ∧
      (timings[i + 1]? = none → cap.winEnd = c + d)

/-- Helper: decoding inverts encoding for a single timing record. -/
theorem decodeTiming_encodeTiming (t : WordTiming) :
    decodeTiming (encodeTiming t) = some t := by
  simp [decodeTiming, encodeTiming]

/-- Helper: decoding inverts encoding for a list of timing records. -/
theorem decodeTimings_encodeTiming (ts : List WordTiming) :
    decodeTimings (ts.map encodeTiming) = some ts := by
  induction ts with
  | nil => rfl
  | cons t rest ih => simp [decodeTimings, decodeTiming_encodeTiming, ih]

/-- C9: save/load round trip — for every non-empty timeline, loading the
saved JSON document returns the original ordered sequence of
`{word, start, end}` records, record for record and field for field. -/
theorem save_load_round_trip (ts : List WordTiming) (_h : ts ≠ []) :
    load_word_timings (save_word_timings ts) = some ts := by
  simp [load_word_timings, save_word_timings, decodeTimings_encodeTiming]

/-- Witness for C9 at the one-record timeline `[{"a", 0, 1}]`. -/
theorem save_load_round_trip_witness :
    ([⟨"a".toList, 0, 1⟩] : List WordTiming) ≠ [] ∧
    load_word_timings (save_word_timings [⟨"a".toList, 0, 1⟩]) =
      some [⟨"a".toList, 0, 1⟩] :=
  ⟨by simp, save_load_round_trip [⟨"a".toList, 0, 1⟩] (by simp)⟩

/-- C10: a text with no non-whitespace token makes `estimate_word_timings`
return the empty list for EVERY duration — the empty-word check precedes the
duration check, so zero-word input never reaches the `ValueError` path. -/
theorem estimate_empty_text (text : List Char) (d : ℚ)
    (h : splitWords text = []) :
    estimate_word_timings text d = Except.ok [] := by
  simp [estimate_word_timings, h]

/-- Witness for C10 at whitespace-only text and negative duration. -/
theorem estimate_empty_text_witness :
    splitWords "   ".toList = [] ∧
    estimate_word_timings "   ".toList (-5) = Except.ok [] :=
  ⟨by decide, estimate_empty_text "   ".toList (-5) (by decide)⟩

/-- C8 counterexample: at empty text and duration `-1` the estimator returns
`Except.ok []`, not the `InvalidDurationError` the claim promises for every
text — the zero-word early return bypasses the duration check. -/
theorem estimate_nonpos_cex :
    estimate_word_timings [] (-1) = Except.ok [] := rfl

/-- C8 amended: for every text containing at least one word and every
duration ≤ 0, `estimate_word_timings` fails with the invalid-duration error
(realized as `ValueError` in the source) rather than returning a timeline. -/
theorem estimate_nonpos_duration (text : List Char) (d : ℚ)
    (hw : splitWords text ≠ []) (hd : d ≤ 0) :
    estimate_word_timings text d =
      Except.error (TimingError.invalidDuration d) := by
  simp [estimate_word_timings, hw, hd]

/-- Witness for the amended C8 at text `"hi"` and duration `0`. -/
theorem estimate_nonpos_duration_witness :
    splitWords "hi".toList ≠ [] ∧ (0 : ℚ) ≤ 0 ∧
    estimate_word_timings "hi".toList 0 =
      Except.error (TimingError.invalidDuration 0) :=
  ⟨by decide, le_refl 0,
    estimate_nonpos_duration "hi".toList 0 (by decide) (le_refl 0)⟩

/-- C1 counterexample: in comment mode with per-unit durations `[5, 5, 40]`
and `max_length = 30`, `TTSEngine.run` does NOT return `(10, 1)` — the
budget check runs before each iteration, so the third unit is synthesized
and counted; the claim fails whether the `[5, 5, 40]` durations are read as
the comment units (title duration 0) or as title-plus-comments. -/
theorem budget_rollback_cex :
    tts_run (some 0) [some 5, some 5, some 40] 30 ≠ ((10 : ℚ), 1) ∧
    tts_run (some 5) [some 5, some 40] 30 ≠ ((10 : ℚ), 1) := by
  constructor <;> norm_num [tts_run, tts_run_loop, call_tts_update]

/-- C1 amended: with durations `[5, 5, 40]` and budget `30` the run
processes all three units and returns `(50, 2)`; only when a further unit
follows does the rollback trigger, returning total `10` (the third unit's
`40` subtracted) and last index `2` — the index still names the rolled-back
unit.  In general, when an iteration starts with the total over budget and
index `> 1`, the loop returns the total minus the immediately preceding
unit's duration, and the index decremented by one. -/
theorem budget_rollback_amended :
    tts_run (some 0) [some 5, some 5, some 40] 30 = ((50 : ℚ), 2) ∧
    tts_run (some 0) [some 5, some 5, some 40, some 1] 30 = ((10 : ℚ), 2) ∧
    ∀ (maxL : ℚ) (st : EngineState) (i : ℕ) (probe : Option ℚ)
      (rest : List (Option ℚ)), st.length > maxL → i > 1 →
      tts_run_loop maxL (probe :: rest) st i =
        (st.length - st.lastClipLength, i - 1) := by
  refine ⟨by norm_num [tts_run, tts_run_loop, call_tts_update],
    by norm_num [tts_run, tts_run_loop, call_tts_update], ?_⟩
  intro maxL st i probe rest h1 h2
  simp [tts_run_loop, h1, h2]

/-- Witness for the amended C1: the rollback branch at the state reached
after units `[5, 5, 40]` with one more unit pending. -/
theorem budget_rollback_amended_witness :
    (⟨50, 40⟩ : EngineState).length > (30 : ℚ) ∧ (3 : ℕ) > 1 ∧
    tts_run_loop 30 [some 1] ⟨50, 40⟩ 3 = ((10 : ℚ), 2) := by
  refine ⟨by norm_num, by norm_num, ?_⟩
  rw [budget_rollback_amended.2.2 30 ⟨50, 40⟩ 3 (some 1) [] (by norm_num)
    (by norm_num)]
  norm_num

/-- C2 counterexample: with accumulated length `5`, a failed probe leaves the
engine at length `0`, not at the claimed unchanged `5` — the
`except Exception: self.length = 0` handler zeroes the whole accumulator. -/
theorem probe_failure_cex :
    call_tts_update ⟨5, 2⟩ none = ⟨0, 2⟩ ∧
    (call_tts_update ⟨5, 2⟩ none).length ≠ 5 := by
  constructor <;> norm_num [call_tts_update]

/-- C2 amended: a failed duration probe never raises, but it RESETS the
accumulated total duration to `0` (discarding every previously completed
unit's contribution) and leaves `last_clip_length` unchanged; accumulation
then restarts from zero, as the run over probes `[5, failure, 4]` shows
(total `4`, not `9`). -/
theorem probe_failure_amended :
    (∀ st : EngineState, call_tts_update st none = ⟨0, st.lastClipLength⟩) ∧
    tts_run (some 0) [some 5, none, some 4] 30 = ((4 : ℚ), 2) :=
  ⟨fun _ => rfl, by norm_num [tts_run, tts_run_loop, call_tts_update]⟩

/-- Helper: the `list.txt` fold writes the fixed full list exactly when some
chunk is retained, and otherwise leaves the file untouched. -/
theorem foldl_write_list (full : List ConcatEntry) (L : List (List Char))
    (acc : Option (List ConcatEntry)) :
    L.foldl (fun acc s => if isBlank s then acc else some full) acc =
      if L.any (fun s => !isBlank s) then some full else acc := by
  induction L generalizing acc with
  | nil => simp
  | cons x xs ih =>
    by_cases hx : isBlank x <;> simp [hx, ih]

/-- C3 counterexample: with two retained parts `["a", "b"]` the concat list
written by `split_post` is `[part 0, part 1, silence]` — every part first,
then a single silence entry at the very end — not the claimed
`[part 0, silence, part 1, silence]` with one silence after every part. -/
theorem concat_list_cex :
    split_post_list [['a'], ['b']] =
      some [ConcatEntry.part 0, ConcatEntry.part 1, ConcatEntry.silence] ∧
    spec_concat_list [['a'], ['b']] =
      [ConcatEntry.part 0, ConcatEntry.silence, ConcatEntry.part 1,
       ConcatEntry.silence] ∧
    split_post_list [['a'], ['b']] ≠
      some (spec_concat_list [['a'], ['b']]) := by decide

/-- C3 amended: whenever at least one chunk is retained, the final concat
list holds one entry for EVERY chunk index `0..n-1` in ascending order —
dropped (blank) chunks included — followed by exactly one silence entry at
the end; with no retained chunk the list file is never written. -/
theorem concat_list_amended (parts : List (List Char))
    (h : parts.any (fun s => !isBlank s) = true) :
    split_post_list parts =
      some ((List.range parts.length).map ConcatEntry.part ++
            [ConcatEntry.silence]) := by
  rw [split_post_list, foldl_write_list, h]
  rfl

/-- Witness for the amended C3 at the two-part input `["a", "b"]`. -/
theorem concat_list_amended_witness :
    ([['a'], ['b']] : List (List Char)).any (fun s => !isBlank s) = true ∧
    split_post_list [['a'], ['b']] =
      some ((List.range 2).map ConcatEntry.part ++ [ConcatEntry.silence]) :=
  ⟨by decide, concat_list_amended [['a'], ['b']] (by decide)⟩

/-- Helper: a part with no timing records is a no-op for the merge fold. -/
theorem mergeStep_empty_part (silence : ℚ) (acc : List WordTiming × ℚ) :
    mergeStep silence acc (some []) = acc := by
  simp [mergeStep]

/-- Helper: the merge step on a non-empty part appends the offset-shifted
records and advances the offset to the last shifted record's end plus the
silence duration. -/
theorem mergeStep_some (silence : ℚ) (merged : List WordTiming) (off : ℚ)
    (ts : List WordTiming) (w : WordTiming) (h : ts.getLast? = some w) :
    mergeStep silence (merged, off) (some ts) =
      (merged ++ ts.map (fun t => ⟨t.word, t.start + off, t.stop + off⟩),
       w.stop + off + silence) := by
  have hne : ts ≠ [] := by
    intro hnil; rw [hnil] at h; simp at h
  have hmapne : ts.map
      (fun t : WordTiming => (⟨t.word, t.start + off, t.stop + off⟩ : WordTiming)) ≠ [] := by
    simpa using hne
  have hemp : ts.isEmpty = false := by simpa [List.isEmpty_iff] using hne
  dsimp only [mergeStep]
  rw [hemp]
  simp only [Bool.false_eq_true, if_false]
  rw [List.getLast?_append_of_ne_nil _ hmapne, List.getLast?_map, h]
  rfl

/-- C5: the timing merge walks parts in order, shifting each record by the
running offset before appending, and advancing the offset past the last
merged record's end plus the silence gap; a part whose timing file failed to
load contributes nothing and leaves the offset untouched; the concrete merge
of `[{a,0,1}]` and `[{b,0,2}]` with gap `1/2` is `[{a,0,1},{b,3/2,7/2}]`. -/
theorem merge_timing_spec :
    merge_timing_files
        [some [⟨"a".toList, 0, 1⟩], some [⟨"b".toList, 0, 2⟩]] (1/2) =
      [⟨"a".toList, 0, 1⟩, ⟨"b".toList, 3/2, 7/2⟩] ∧
    (∀ (silence : ℚ) (pre post : List (Option (List WordTiming))),
      merge_timing_files (pre ++ some [] :: post) silence =
        merge_timing_files (pre ++ post) silence) ∧
    (∀ (silence : ℚ) (merged : List WordTiming) (off : ℚ)
        (ts : List WordTiming) (w : WordTiming), ts.getLast? = some w →
      mergeStep silence (merged, off) (some ts) =
        (merged ++ ts.map (fun t => ⟨t.word, t.start + off, t.stop + off⟩),
         w.stop + off + silence)) := by
  refine ⟨?_, ?_, fun s m off ts w h => mergeStep_some s m off ts w h⟩
  · norm_num [merge_timing_files, mergeStep]
  · intro silence pre post
    simp [merge_timing_files, List.foldl_append, mergeStep_empty_part]

/-- Witness for C5's offset-advance clause at the single-record part
`[{b, 0, 2}]` with offset `3/2` and gap `1/2`. -/
theorem merge_timing_spec_witness :
    ([⟨"b".toList, 0, 2⟩] : List WordTiming).getLast? =
      some ⟨"b".toList, 0, 2⟩ ∧
    mergeStep (1/2) ([⟨"a".toList, 0, 1⟩], 3/2) (some [⟨"b".toList, 0, 2⟩]) =
      ([⟨"a".toList, 0, 1⟩] ++
         ([⟨"b".toList, 0, 2⟩] : List WordTiming).map
           (fun t => ⟨t.word, t.start + 3/2, t.stop + 3/2⟩),
       (⟨"b".toList, 0, 2⟩ : WordTiming).stop + 3/2 + 1/2) :=
  ⟨rfl, merge_timing_spec.2.2 (1/2) [⟨"a".toList, 0, 1⟩] (3/2)
    [⟨"b".toList, 0, 2⟩] ⟨"b".toList, 0, 2⟩ rfl⟩

/-- Helper: the estimator loop yields one record per word. -/
theorem estimateGo_length (tpw : ℚ) (ws : List (List Char)) (cur : ℚ) :
    (estimateGo tpw ws cur).length = ws.length := by
  induction ws generalizing cur with
  | nil => rfl
  | cons w rest ih => simp [estimateGo, ih]

/-- Helper: record `i` of the estimator loop carries word `i` and spans
`[cur + i*tpw, cur + (i+1)*tpw]`. -/
theorem estimateGo_getElem? (tpw : ℚ) (ws : List (List Char)) (cur : ℚ)
    (i : ℕ) :
    (estimateGo tpw ws cur)[i]? =
      ws[i]?.map (fun w => ⟨w, cur + i * tpw, cur + (i + 1) * tpw⟩) := by
  induction ws generalizing cur i with
  | nil => simp [estimateGo]
  | cons w rest ih =>
    cases i with
    | zero => simp [estimateGo]
    | succ j =>
      have hstep : estimateGo tpw (w :: rest) cur =
          ⟨w, cur, cur + tpw⟩ :: estimateGo tpw rest (cur + tpw) := rfl
      rw [hstep, List.getElem?_cons_succ, List.getElem?_cons_succ,
        ih (cur + tpw) j]
      cases rest[j]? with
      | none => rfl
      | some wj =>
        simp only [Option.map_some']
        congr 1
        simp only [WordTiming.mk.injEq]
        refine ⟨trivial, ?_, ?_⟩ <;> push_cast <;> ring

/-- C7: on a text with at least one word and a positive duration, the
estimator returns exactly one record per word, record `i` spanning
`[i*(d/n), (i+1)*(d/n)]`; hence the first start is `0`, the last end is
exactly `d`, starts and ends are non-decreasing, and consecutive windows are
contiguous (each record's end is the next record's start). -/
theorem estimate_uniform_windows (text : List Char) (d : ℚ)
    (hw : splitWords text ≠ []) (hd : 0 < d) : estimateSpec text d := by
  have hemp : (splitWords text).isEmpty = false := by
    simpa [List.isEmpty_iff] using hw
  have hlen0 : 0 < (splitWords text).length := List.length_pos.mpr hw
  have hn0 : ((splitWords text).length : ℚ) ≠ 0 := by
    exact_mod_cast Nat.pos_iff_ne_zero.mp hlen0
  have hnpos : (0 : ℚ) < ((splitWords text).length : ℚ) := by
    exact_mod_cast hlen0
  set n : ℚ := ((splitWords text).length : ℚ) with hn
  set tpw : ℚ := d / n with htpw
  have htpw_pos : 0 < tpw := div_pos hd hnpos
  have hok : estimate_word_timings text d =
      Except.ok (estimateGo tpw (splitWords text) 0) := by
    simp [estimate_word_timings, hemp, not_le.mpr hd, htpw, hn]
  have hgq : ∀ i : ℕ, (estimateGo tpw (splitWords text) 0)[i]? =
      (splitWords text)[i]?.map
        (fun w => ⟨w, (i : ℚ) * tpw, ((i : ℚ) + 1) * tpw⟩) := by
    intro i
    rw [estimateGo_getElem? tpw (splitWords text) 0 i]
    cases (splitWords text)[i]? with
    | none => rfl
    | some w => simp
  have hlen : (estimateGo tpw (splitWords text) 0).length =
      (splitWords text).length := estimateGo_length tpw (splitWords text) 0
  refine ⟨estimateGo tpw (splitWords text) 0, hok, hlen, hgq, ?_, ?_, ?_, ?_⟩
  · -- first start is 0
    rw [List.head?_eq_getElem?, hgq 0]
    rw [List.getElem?_eq_getElem hlen0]
    simp
  · -- last end is d
    rw [List.getLast?_eq_getElem?, hlen, hgq ((splitWords text).length - 1)]
    rw [List.getElem?_eq_getElem (by omega)]
    simp only [Option.map_some']
    have : ((((splitWords text).length - 1 : ℕ) : ℚ) + 1) * tpw = d := by
      have hcast : (((splitWords text).length - 1 : ℕ) : ℚ) = n - 1 := by
        rw [hn]; push_cast [hlen0]; ring
      rw [hcast, htpw]
      field_simp
    simp [this]
  · -- starts and ends are non-decreasing
    rw [List.chain'_iff_get]
    intro i hi
    have hi2 : i + 1 < (estimateGo tpw (splitWords text) 0).length := by omega
    have hi1 : i < (estimateGo tpw (splitWords text) 0).length := by omega
    have e1 := hgq i
    have e2 := hgq (i + 1)
    rw [List.getElem?_eq_getElem hi1] at e1
    rw [List.getElem?_eq_getElem hi2] at e2
    rw [List.getElem?_eq_getElem (by omega : i < (splitWords text).length)] at e1
    rw [List.getElem?_eq_getElem
      (by omega : i + 1 < (splitWords text).length)] at e2
    simp only [Option.map_some', Option.some.injEq] at e1 e2
    rw [List.get_eq_getElem, List.get_eq_getElem, e1, e2]
    constructor
    · push_cast
      nlinarith [htpw_pos.le]
    · push_cast
      nlinarith [htpw_pos.le]
  · -- contiguous windows
    intro i hi
    rw [hgq i, hgq (i + 1)]
    rw [List.getElem?_eq_getElem (by omega : i < (splitWords text).length),
      List.getElem?_eq_getElem (by omega : i + 1 < (splitWords text).length)]
    simp only [Option.map_some']
    push_cast
    ring_nf

/-- Witness for C7 at text `"hi there"` and duration `3`. -/
theorem estimate_uniform_windows_witness :
    splitWords "hi there".toList ≠ [] ∧ (0 : ℚ) < 3 ∧
    estimateSpec "hi there".toList 3 :=
  ⟨by decide, by norm_num,
    estimate_uniform_windows "hi there".toList 3 (by decide) (by norm_num)⟩

/-- Helper: a single-character replace is the identity on a string not
containing that character. -/
theorem replaceChar_eq_self (c : Char) (rep : List Char) (l : List Char)
    (h : c ∉ l) : replaceChar c rep l = l := by
  induction l with
  | nil => rfl
  | cons x xs ih =>
    have hx : x ≠ c := fun hxc => h (hxc ▸ List.mem_cons_self x xs)
    have hxs : c ∉ xs := fun hm => h (List.mem_cons_of_mem x hm)
    simp [replaceChar, List.foldr_cons, hx]
    exact ih hxs

/-- Helper: the FFmpeg escaping is the identity on text containing no single
quote, colon or percent sign. -/
theorem ffmpegEscape_eq_self (l : List Char) (h : ∀ ch ∈ l, cleanChar ch) :
    ffmpegEscape l = l := by
  have h1 : sqChar ∉ l := fun hm => (h _ hm).1 rfl
  have h2 : ':' ∉ l := fun hm => (h _ hm).2.1 rfl
  have h3 : '%' ∉ l := fun hm => (h _ hm).2.2 rfl
  unfold ffmpegEscape
  rw [replaceChar_eq_self _ _ _ h1, replaceChar_eq_self _ _ _ h2,
    replaceChar_eq_self _ _ _ h3]

/-- Helper: every character of a space-join is a space or a character of one
of the joined words. -/
theorem mem_joinWords (ws : List (List Char)) (ch : Char)
    (h : ch ∈ joinWords ws) : ch = ' ' ∨ ∃ w ∈ ws, ch ∈ w := by
  induction ws with
  | nil => simp [joinWords] at h
  | cons w rest ih =>
    cases rest with
    | nil =>
      simp [joinWords] at h
      exact Or.inr ⟨w, by simp, h⟩
    | cons w2 rest2 =>
      have hj : joinWords (w :: w2 :: rest2) =
          w ++ ' ' :: joinWords (w2 :: rest2) := rfl
      rw [hj] at h
      rcases List.mem_append.mp h with hw | hw
      · exact Or.inr ⟨w, by simp, hw⟩
      · rcases List.mem_cons.mp hw with hsp | hr
        · exact Or.inl hsp
        · rcases ih hr with hsp | ⟨w3, hw3, hch⟩
          · exact Or.inl hsp
          · exact Or.inr ⟨w3, List.mem_cons_of_mem _ hw3, hch⟩

/-- Helper: caption `i` of `apply_word_by_word_text`, for `i` in range. -/
theorem apply_word_by_word_getElem? (timings : List WordTiming) (s e : ℚ)
    (i : ℕ) (h : i < timings.length) :
    (apply_word_by_word_text timings s e)[i]? = some
      ⟨ffmpegEscape (joinWords ((timings.take (i + 1)).map WordTiming.word)),
       s + (timings.getD i default).start,
       if i < timings.length - 1 then s + (timings.getD (i + 1) default).start
       else e⟩ := by
  unfold apply_word_by_word_text
  rw [List.getElem?_map, List.getElem?_range h]
  rfl

/-- C6: for a unit at cursor `c` with duration `d` (so `end_time = c + d`)
and a non-empty timeline, one caption is emitted per word; caption `i`
starts at `c + timings[i].start` and ends at `c + timings[i+1].start`, the
last caption ending at `c + d` (through the end of the unit's audio); its
payload is the progressive space-join of words `0..i` (passed through the
FFmpeg escaping, which is the identity on words free of quote/colon/percent
characters, as hypothesis `hclean` grants).  The concrete unit of duration 3
with timeline `[{hi,0,1},{there,1,2}]` yields windows `[0,1) -> "hi"` and
`[1,3) -> "hi there"`. -/
theorem overlay_schedule (timings : List WordTiming) (c d : ℚ)
    (_hn : timings ≠ [])
    (hclean : ∀ t ∈ timings, ∀ ch ∈ t.word, cleanChar ch) :
    overlayCaptionsOk timings c d ∧
    (∀ (i : ℕ) (cap : Caption),
      (apply_word_by_word_text timings c (c + d))[i]? = some cap →
      cap.text = joinWords ((timings.take (i + 1)).map WordTiming.word)) ∧
    apply_word_by_word_text [⟨"hi".toList, 0, 1⟩, ⟨"there".toList, 1, 2⟩]
        0 3 =
      [⟨"hi".toList, 0, 1⟩, ⟨"hi there".toList, 1, 3⟩] := by
  have htext : ∀ i : ℕ, i < timings.length →
      ffmpegEscape (joinWords ((timings.take (i + 1)).map WordTiming.word)) =
      joinWords ((timings.take (i + 1)).map WordTiming.word) := by
    intro i _
    apply ffmpegEscape_eq_self
    intro ch hch
    rcases mem_joinWords _ ch hch with hsp | ⟨w, hw, hchw⟩
    · rw [hsp]; refine ⟨?_, ?_, ?_⟩ <;> decide
    · rcases List.mem_map.mp hw with ⟨t, ht, rfl⟩
      exact hclean t (List.take_subset _ _ ht) ch hchw
  refine ⟨⟨?_, ?_⟩, ?_, ?_⟩
  · simp [apply_word_by_word_text]
  · intro i t h
    have hi : i < timings.length := by
      by_contra hge
      rw [List.getElem?_eq_none (by omega)] at h
      exact Option.noConfusion h
    refine ⟨_, apply_word_by_word_getElem? timings c (c + d) i hi, rfl, ?_, ?_, ?_⟩
    · dsimp only
      rw [List.getD_eq_getElem?_getD timings i, h]
      rfl
    · intro t2 h2
      have hi2 : i + 1 < timings.length := by
        by_contra hge
        rw [List.getElem?_eq_none (by omega)] at h2
        exact Option.noConfusion h2
      dsimp only
      rw [if_pos (by omega : i < timings.length - 1),
        List.getD_eq_getElem?_getD timings (i + 1), h2]
      rfl
    · intro h2
      have hi2 : ¬ (i + 1 < timings.length) := by
        intro hlt
        rw [List.getElem?_eq_getElem hlt] at h2
        exact Option.noConfusion h2
      dsimp only
      rw [if_neg (by omega : ¬ i < timings.length - 1)]
  · intro i cap hcap
    have hi : i < timings.length := by
      by_contra hge
      rw [List.getElem?_eq_none
        (by simpa [apply_word_by_word_text] using (by omega : timings.length ≤ i))] at hcap
      exact Option.noConfusion hcap
    rw [apply_word_by_word_getElem? timings c (c + d) i hi] at hcap
    cases hcap
    exact htext i hi
  · have e1 : ffmpegEscape (joinWords [['h', 'i']]) = ['h', 'i'] := by
      decide
    have e2 : ffmpegEscape (joinWords [['h', 'i'], ['t', 'h', 'e', 'r', 'e']]) =
        ['h', 'i', ' ', 't', 'h', 'e', 'r', 'e'] := by decide
    simp only [apply_word_by_word_text, List.range_succ, List.range_zero,
      List.map_nil, List.map_cons, List.nil_append, List.cons_append,
      List.take_succ_cons, List.take_zero, List.length_cons,
      List.length_nil]
    norm_num [List.getD, e1, e2, Caption.mk.injEq]

/-- Witness for C6 at the unit of duration `3`, cursor `0`, timeline
`[{hi,0,1},{there,1,2}]`. -/
theorem overlay_schedule_witness :
    ([⟨"hi".toList, 0, 1⟩, ⟨"there".toList, 1, 2⟩] : List WordTiming) ≠ [] ∧
    (∀ t ∈ ([⟨"hi".toList, 0, 1⟩, ⟨"there".toList, 1, 2⟩] :
        List WordTiming), ∀ ch ∈ t.word, cleanChar ch) ∧
    overlayCaptionsOk [⟨"hi".toList, 0, 1⟩, ⟨"there".toList, 1, 2⟩] 0 3 :=
  ⟨by simp, by decide,
    (overlay_schedule [⟨"hi".toList, 0, 1⟩, ⟨"there".toList, 1, 2⟩] 0 3
      (by simp) (by decide)).1⟩

/-- Helper: `dropWhile` never lengthens a list. -/
theorem length_dropWhile_le_self (p : Char → Bool) (l : List Char) :
    (l.dropWhile p).length ≤ l.length :=
  List.Sublist.length_le (List.dropWhile_sublist p)

/-- Helper: a successful terminator match ends one past its position, which
lies inside the text. -/
theorem termEnd_eq (t : List Char) (r e : ℕ) (h : termEnd t r = some e) :
    e = r + 1 ∧ r < t.length := by
  unfold termEnd at h
  cases hg : t.get? r with
  | none => rw [hg] at h; exact Option.noConfusion h
  | some ch =>
    rw [hg] at h
    have hr : r < t.length := by
      rcases List.get?_eq_some.mp hg with ⟨hlt, _⟩
      exact hlt
    dsimp only at h
    split_ifs at h with h1 h2
    · exact ⟨(Option.some.inj h).symm, hr⟩
    · exact ⟨(Option.some.inj h).symm, hr⟩

/-- Helper: a successful content-plus-terminator match consumes some `k ≤ c`
content characters and then a terminator. -/
theorem tryContent_spec (t : List Char) (q : ℕ) :
    ∀ c e, tryContent t q c = some e →
      ∃ k, k ≤ c ∧ termEnd t (q + k) = some e := by
  intro c
  induction c with
  | zero => intro e h; exact ⟨0, Nat.le_refl 0, h⟩
  | succ c ih =>
    intro e h
    rw [tryContent] at h
    cases hterm : termEnd t (q + c + 1) with
    | some e2 =>
      rw [hterm] at h
      injection h with he
      exact ⟨c + 1, Nat.le_refl _, by rw [he] at hterm; exact hterm⟩
    | none =>
      rw [hterm] at h
      obtain ⟨k, hk, hke⟩ := ih e h
      exact ⟨k, Nat.le_succ_of_le hk, hke⟩

/-- Helper: a successful match consumes some `s2 ≤ s` leading spaces and
then content plus terminator. -/
theorem trySpaces_spec (t : List Char) (M p : ℕ) :
    ∀ s e, trySpaces t M p s = some e →
      ∃ s2, s2 ≤ s ∧ tryContent t (p + s2) M = some e := by
  intro s
  induction s with
  | zero => intro e h; exact ⟨0, Nat.le_refl 0, h⟩
  | succ s ih =>
    intro e h
    rw [trySpaces] at h
    cases hc : tryContent t (p + s + 1) M with
    | some e2 =>
      rw [hc] at h
      injection h with he
      exact ⟨s + 1, Nat.le_refl _, by rw [he] at hc; exact hc⟩
    | none =>
      rw [hc] at h
      obtain ⟨s2, hs2, hse⟩ := ih e h
      exact ⟨s2, Nat.le_succ_of_le hs2, hse⟩

/-- Helper: anatomy of a whole-pattern match at `p`: `s` spaces (within the
space run at `p`), at most `M` content characters, one terminator character
inside the text, ending at `e`. -/
theorem tryMatch_spec (t : List Char) (M p e : ℕ)
    (h : tryMatch t M p = some e) :
    ∃ s c, s ≤ spaceRun t p ∧ c ≤ M ∧ e = p + s + c + 1 ∧
      p + s + c < t.length := by
  obtain ⟨s, hs, hcont⟩ := trySpaces_spec t M p (spaceRun t p) e h
  obtain ⟨c, hcM, hterm⟩ := tryContent_spec t (p + s) M e hcont
  obtain ⟨he, hlt⟩ := termEnd_eq t (p + s + c) e hterm
  exact ⟨s, c, hs, hcM, by omega, hlt⟩

/-- Helper: positions inside a `takeWhile` satisfy the predicate. -/
theorem takeWhile_pred (pred : Char → Bool) (l : List Char) :
    ∀ i, i < (l.takeWhile pred).length →
      ∃ a, l.get? i = some a ∧ pred a = true := by
  induction l with
  | nil => intro i h; simp [List.takeWhile] at h
  | cons x xs ih =>
    intro i h
    cases hx : pred x with
    | false => simp [List.takeWhile_cons, hx] at h
    | true =>
      simp only [List.takeWhile_cons, hx, if_true, List.length_cons] at h
      cases i with
      | zero => exact ⟨x, rfl, hx⟩
      | succ j =>
        obtain ⟨a, ha, hpa⟩ := ih j (by omega)
        exact ⟨a, by simpa using ha, hpa⟩

/-- Helper: the first `spaceRun t p` characters from `p` are spaces. -/
theorem spaceRun_spec (t : List Char) (p i : ℕ) (h : i < spaceRun t p) :
    t.get? (p + i) = some ' ' := by
  unfold spaceRun at h
  obtain ⟨a, ha, hpa⟩ := takeWhile_pred (fun c => c = ' ') (t.drop p) i h
  rw [List.get?_drop] at ha
  have haeq : a = ' ' := of_decide_eq_true hpa
  rw [haeq] at ha
  exact ha

/-- Helper: every span produced by the finditer scan is a pattern match. -/
theorem finditerGo_mem (t : List Char) (M : ℕ) :
    ∀ fuel p sp, sp ∈ finditerGo t M fuel p →
      tryMatch t M sp.1 = some sp.2 := by
  intro fuel
  induction fuel with
  | zero => intro p sp h; simp [finditerGo] at h
  | succ fuel ih =>
    intro p sp h
    rw [finditerGo] at h
    by_cases hp : p ≤ t.length
    · rw [if_pos hp] at h
      cases hm : tryMatch t M p with
      | some e =>
        rw [hm] at h
        rcases List.mem_cons.mp h with heq | hmem
        · subst heq; exact hm
        · exact ih e sp hmem
      | none =>
        rw [hm] at h
        exact ih (p + 1) sp h
    · rw [if_neg hp] at h
      exact absurd h (List.not_mem_nil sp)

/-- Helper: dropping the whitespace prefix removes at least the `s` known
leading spaces. -/
theorem dropWhile_le_of_spaces :
    ∀ (s : ℕ) (l : List Char), (∀ i, i < s → l.get? i = some ' ') →
      (l.dropWhile pyWsB).length + s ≤ l.length := by
  intro s
  induction s with
  | zero =>
    intro l _
    have := length_dropWhile_le_self pyWsB l
    omega
  | succ s ih =>
    intro l h
    cases l with
    | nil =>
      have h0 := h 0 (by omega)
      exact Option.noConfusion h0
    | cons x xs =>
      have hx : x = ' ' := by
        have h0 := h 0 (by omega)
        simpa using h0
      subst hx
      have hdrop : ((' ' :: xs).dropWhile pyWsB) = xs.dropWhile pyWsB := by
        rw [List.dropWhile_cons]
        simp [pyWsB]
      rw [hdrop]
      have hxs : ∀ i, i < s → xs.get? i = some ' ' := by
        intro i hi
        have := h (i + 1) (by omega)
        simpa using this
      have := ih xs hxs
      simp only [List.length_cons]
      omega

/-- Helper: stripping is at most dropping the whitespace prefix, in length. -/
theorem pyStrip_length_le (l : List Char) :
    (pyStrip l).length ≤ (l.dropWhile pyWsB).length := by
  unfold pyStrip
  rw [List.length_reverse]
  calc ((l.dropWhile pyWsB).reverse.dropWhile pyWsB).length
      ≤ (l.dropWhile pyWsB).reverse.length :=
        length_dropWhile_le_self pyWsB (l.dropWhile pyWsB).reverse
    _ = (l.dropWhile pyWsB).length := List.length_reverse _

/-- C4 counterexample: with `max_chars = 2` the text `"abc."` splits into the
single chunk `"bc."` of length `3 > 2` — the regex allows up to `max_chars`
content characters PLUS the one terminating character, so chunks may exceed
`max_chars` by one. -/
theorem split_chunk_cex :
    split_post_chunks "abc.".toList 2 = [['b', 'c', '.']] ∧
    ¬ ((['b', 'c', '.'] : List Char).length ≤ 2) := by decide

/-- C4 amended: every chunk produced by the `split_post` regex split has
length at most `max_chars + 1`: a match is some leading spaces (stripped),
at most `max_chars` content characters, and one terminating character (the
sentence period, or the final character of the text). -/
theorem split_chunk_length_le (text : List Char) (M : ℕ) (chunk : List Char)
    (h : chunk ∈ split_post_chunks text M) : chunk.length ≤ M + 1 := by
  unfold split_post_chunks finditer at h
  obtain ⟨sp, hsp, rfl⟩ := List.mem_map.mp h
  obtain ⟨p, e⟩ := sp
  have hmatch := finditerGo_mem text M (text.length + 1) 0 (p, e) hsp
  obtain ⟨s, c, hs, hc, he, hlt⟩ := tryMatch_spec text M p e hmatch
  have hlen : (extractSpan text (p, e)).length = s + c + 1 := by
    unfold extractSpan
    simp only [List.length_take, List.length_drop]
    omega
  have hspaces : ∀ i, i < s → (extractSpan text (p, e)).get? i = some ' ' := by
    intro i hi
    unfold extractSpan
    rw [List.get?_take (by omega : i < e - p), List.get?_drop]
    exact spaceRun_spec text p i (lt_of_lt_of_le hi hs)
  have h1 := pyStrip_length_le (extractSpan text (p, e))
  have h2 := dropWhile_le_of_spaces s (extractSpan text (p, e)) hspaces
  omega

/-- Witness for the amended C4 at the chunk `"bc."` of `split_post_chunks
"abc." 2`. -/
theorem split_chunk_length_le_witness :
    (['b', 'c', '.'] : List Char) ∈ split_post_chunks "abc.".toList 2 ∧
    (['b', 'c', '.'] : List Char).length ≤ 2 + 1 :=
  ⟨by decide, split_chunk_length_le "abc.".toList 2 ['b', 'c', '.']
    (by decide)⟩
